import Mathlib

/-!
Verification of the FID script (src/test_2b.ipynb) and the training-loop
tutorial notebook (src/recitations/Week2-training.ipynb).

The FID script computes, for two (mean, covariance) summaries,

  FID = ||mu_r - mu_g||^2 + Tr(Sigma_r + Sigma_g - 2 (Sigma_r Sigma_g)^(1/2))

using `scipy.linalg.sqrtm` for the principal matrix square root, evaluates it
on hard-coded 4-vectors and 4x4 matrices and prints which fake image set is
closer to the real statistics.  We embed the script over the real numbers:
vectors are `Fin n → ℝ`, matrices are `Matrix (Fin n) (Fin n) ℝ`, and the
external `sqrtm` routine is modelled by its mathematical specification (the
principal matrix square root).
-/

open scoped BigOperators
open scoped Matrix

namespace FID

/-- Modelled from the spec: the external routine `scipy.linalg.sqrtm` (not part
of this repository) returns the principal matrix square root of its argument.
A square matrix `S` is the principal square root of `M` when `S * S = M` and
the spectrum of `S` lies in the closed right half plane; for the matrices this
script feeds to `sqrtm` (products of symmetric positive semidefinite matrices)
the principal square root is diagonalisable with nonnegative real eigenvalues.
`IsPrincipalSqrt M S` states exactly that: `S` squares to `M` and `S` is
diagonalisable with nonnegative real eigenvalues. -/
def IsPrincipalSqrt {n : ℕ} (M S : Matrix (Fin n) (Fin n) ℝ) : Prop :=
  S * S = M ∧ ∃ (P : Matrix (Fin n) (Fin n) ℝ) (d : Fin n → ℝ),
    IsUnit P.det ∧ (∀ i, 0 ≤ d i) ∧ S = P * Matrix.diagonal d * P⁻¹

/-- Modelled from the spec: `scipy.linalg.sqrtm(M, disp=False)`, the principal
matrix square root of `M`.  Chosen as any matrix satisfying
`IsPrincipalSqrt M ·` when one exists (the theorems below only use properties
shared by every such matrix, such as its trace on the script's inputs). -/
noncomputable def sqrtm {n : ℕ} (M : Matrix (Fin n) (Fin n) ℝ) :
    Matrix (Fin n) (Fin n) ℝ :=
  letI := Classical.propDecidable (∃ S, IsPrincipalSqrt M S)
  if h : ∃ S, IsPrincipalSqrt M S then h.choose else 0

/-- The FID formula from the script:

    def calculate_fid(real_mu, real_sigma, x_mu, x_sigma):
        diff = real_mu - x_mu
        mean_diff = np.sum(diff**2)
        covmean, _ = sqrtm(real_sigma @ x_sigma, disp=False)
        fid = mean_diff + np.trace(real_sigma + x_sigma - 2 * covmean)
        return fid
-/
noncomputable def calculate_fid {n : ℕ} (real_mu : Fin n → ℝ)
    (real_sigma : Matrix (Fin n) (Fin n) ℝ) (x_mu : Fin n → ℝ)
    (x_sigma : Matrix (Fin n) (Fin n) ℝ) : ℝ :=
  let diff := real_mu - x_mu
  let mean_diff := ∑ i, diff i ^ 2
  let covmean := sqrtm (real_sigma * x_sigma)
  mean_diff + Matrix.trace (real_sigma + x_sigma - (2 : ℝ) • covmean)

/-- Real image statistics: `mu_real` from the script. -/
noncomputable def mu_real : Fin 4 → ℝ := ![0.5, 0.2, 0.7, 0.4]

/-- Real image statistics: `sigma_real` from the script. -/
noncomputable def sigma_real : Matrix (Fin 4) (Fin 4) ℝ :=
  !![0.2, 0.1, 0.05, 0.02;
     0.1, 0.3, 0.1, 0.05;
     0.05, 0.1, 0.4, 0.1;
     0.02, 0.05, 0.1, 0.2]

/-- Fake set I statistics: `mu1` from the script. -/
noncomputable def mu1 : Fin 4 → ℝ := ![0.4, 0.3, 0.5, 0.6]

/-- Fake set I statistics: `sigma1` from the script. -/
noncomputable def sigma1 : Matrix (Fin 4) (Fin 4) ℝ :=
  !![0.7, 0.1, 0.05, 0.02;
     0.1, 0.2, 0.1, 0.05;
     0.05, 0.1, 0.3, 0.1;
     0.02, 0.05, 0.1, 0.15]

/-- Fake set II statistics: `mu2` from the script. -/
noncomputable def mu2 : Fin 4 → ℝ := ![0.7, 0.1, 0.3, 0.5]

/-- Fake set II statistics: `sigma2` from the script. -/
noncomputable def sigma2 : Matrix (Fin 4) (Fin 4) ℝ :=
  !![0.4, 0.05, 0.05, 0.01;
     0.05, 0.3, 0.1, 0.05;
     0.05, 0.1, 0.2, 0.05;
     0.01, 0.05, 0.05, 0.2]

/-! ### Positive semidefiniteness certificates

Each of the three hard-coded covariance matrices has an exact rational
`L * D * Lᵀ` factorisation with `L` unit lower triangular and `D` a nonnegative
diagonal, which certifies that it is symmetric positive semidefinite. -/

/-- A matrix with an `L * D * Lᴴ` factorisation, `D` a nonnegative diagonal,
is positive semidefinite. -/
lemma posSemidef_of_ldl {n : ℕ} {L M : Matrix (Fin n) (Fin n) ℝ} {d : Fin n → ℝ}
    (hd : ∀ i, 0 ≤ d i) (h : L * Matrix.diagonal d * Lᴴ = M) : M.PosSemidef :=
  h ▸ (Matrix.posSemidef_diagonal_iff.mpr hd).mul_mul_conjTranspose_same L

/-- Unit lower triangular factor of `sigma_real`. -/
noncomputable def LA : Matrix (Fin 4) (Fin 4) ℝ :=
  !![1, 0, 0, 0;
     1/2, 1, 0, 0;
     1/4, 3/10, 1, 0;
     1/10, 4/25, 83/365, 1]

/-- Diagonal factor of `sigma_real` (all entries positive). -/
noncomputable def dA : Fin 4 → ℝ := ![1/5, 1/4, 73/200, 12609/73000]

/-- Unit lower triangular factor of `sigma1`. -/
noncomputable def LB1 : Matrix (Fin 4) (Fin 4) ℝ :=
  !![1, 0, 0, 0;
     1/7, 1, 0, 0;
     1/14, 1/2, 1, 0;
     1/35, 33/130, 3/10, 1]

/-- Diagonal factor of `sigma1` (all entries positive). -/
noncomputable def dB1 : Fin 4 → ℝ := ![7/10, 13/70, 1/4, 2989/26000]

/-- Unit lower triangular factor of `sigma2`. -/
noncomputable def LB2 : Matrix (Fin 4) (Fin 4) ℝ :=
  !![1, 0, 0, 0;
     1/8, 1, 0, 0;
     1/8, 15/47, 1, 0;
     1/40, 39/235, 78/385, 1]

/-- Diagonal factor of `sigma2` (all entries positive). -/
noncomputable def dB2 : Fin 4 → ℝ := ![2/5, 47/160, 77/470, 356/1925]

/-- Exact LDL factorisation of `sigma_real`. -/
lemma ldl_sigma_real : LA * Matrix.diagonal dA * LAᴴ = sigma_real := by
  ext i j
  fin_cases i <;> fin_cases j <;>
    norm_num [LA, dA, sigma_real, Matrix.mul_apply, Matrix.diagonal_apply,
      Fin.sum_univ_four, Matrix.conjTranspose_apply, Matrix.vecHead, Matrix.vecTail,
      Matrix.vecMul, Matrix.dotProduct]

/-- Exact LDL factorisation of `sigma1`. -/
lemma ldl_sigma1 : LB1 * Matrix.diagonal dB1 * LB1ᴴ = sigma1 := by
  ext i j
  fin_cases i <;> fin_cases j <;>
    norm_num [LB1, dB1, sigma1, Matrix.mul_apply, Matrix.diagonal_apply,
      Fin.sum_univ_four, Matrix.conjTranspose_apply, Matrix.vecHead, Matrix.vecTail,
      Matrix.vecMul, Matrix.dotProduct]

/-- Exact LDL factorisation of `sigma2`. -/
lemma ldl_sigma2 : LB2 * Matrix.diagonal dB2 * LB2ᴴ = sigma2 := by
  ext i j
  fin_cases i <;> fin_cases j <;>
    norm_num [LB2, dB2, sigma2, Matrix.mul_apply, Matrix.diagonal_apply,
      Fin.sum_univ_four, Matrix.conjTranspose_apply, Matrix.vecHead, Matrix.vecTail,
      Matrix.vecMul, Matrix.dotProduct]

/-- The real covariance matrix is positive semidefinite. -/
lemma sigma_real_posSemidef : sigma_real.PosSemidef :=
  posSemidef_of_ldl (fun i => by fin_cases i <;> norm_num [dA]) ldl_sigma_real

/-- The first fake covariance matrix is positive semidefinite. -/
lemma sigma1_posSemidef : sigma1.PosSemidef :=
  posSemidef_of_ldl (fun i => by fin_cases i <;> norm_num [dB1]) ldl_sigma1

/-- The second fake covariance matrix is positive semidefinite. -/
lemma sigma2_posSemidef : sigma2.PosSemidef :=
  posSemidef_of_ldl (fun i => by fin_cases i <;> norm_num [dB2]) ldl_sigma2

/-- Transposing `sigma_real` gives it back. -/
lemma sigma_real_symm : sigma_realᵀ = sigma_real := by
  ext i j
  fin_cases i <;> fin_cases j <;> norm_num [sigma_real, Matrix.transpose_apply]

/-- Transposing `sigma1` gives it back. -/
lemma sigma1_symm : sigma1ᵀ = sigma1 := by
  ext i j
  fin_cases i <;> fin_cases j <;> norm_num [sigma1, Matrix.transpose_apply]

/-- Transposing `sigma2` gives it back. -/
lemma sigma2_symm : sigma2ᵀ = sigma2 := by
  ext i j
  fin_cases i <;> fin_cases j <;> norm_num [sigma2, Matrix.transpose_apply]

/-- C5: each of the three hard-coded 4x4 covariance matrices `sigma_real`,
`sigma1` and `sigma2` is symmetric and positive semidefinite. -/
theorem sigma_matrices_symmetric_posSemidef :
    (sigma_real.IsSymm ∧ sigma_real.PosSemidef) ∧
      (sigma1.IsSymm ∧ sigma1.PosSemidef) ∧
      (sigma2.IsSymm ∧ sigma2.PosSemidef) :=
  ⟨⟨sigma_real_symm, sigma_real_posSemidef⟩,
    ⟨sigma1_symm, sigma1_posSemidef⟩,
    ⟨sigma2_symm, sigma2_posSemidef⟩⟩

/-- The script's first computed distance `fid1 = calculate_fid(mu_real, sigma_real, mu1, sigma1)`. -/
noncomputable def fid1 : ℝ := calculate_fid mu_real sigma_real mu1 sigma1

/-- The script's second computed distance `fid2 = calculate_fid(mu_real, sigma_real, mu2, sigma2)`. -/
noncomputable def fid2 : ℝ := calculate_fid mu_real sigma_real mu2 sigma2

/-- The script's selection `better = "Set I" if fid1 < fid2 else "Set II"`. -/
noncomputable def better : String :=
  letI := Classical.propDecidable (fid1 < fid2)
  if fid1 < fid2 then "Set I" else "Set II"

/-- The text printed by the script's final line
`print(f"\nBased on FID score, Fake Image {better} is better")`
(after the leading newline of the f-string). -/
noncomputable def betterMessage : String :=
  "Based on FID score, Fake Image " ++ better ++ " is better"

/-! ### Generic machinery about conjugated diagonal matrices

Any matrix of the form `P * diagonal d * P⁻¹` has trace `∑ d i`, and its powers
are again conjugated diagonals. -/

/-- Conjugation by an invertible matrix preserves the trace. -/
lemma trace_conj {n : ℕ} (P X : Matrix (Fin n) (Fin n) ℝ) (hP : IsUnit P.det) :
    (P * X * P⁻¹).trace = X.trace := by
  rw [Matrix.trace_mul_cycle, Matrix.nonsing_inv_mul _ hP, Matrix.one_mul]

/-- Powers of a conjugated diagonal matrix. -/
lemma diag_conj_pow {n : ℕ} (P : Matrix (Fin n) (Fin n) ℝ) (d : Fin n → ℝ)
    (hP : IsUnit P.det) (k : ℕ) :
    (P * Matrix.diagonal d * P⁻¹) ^ k =
      P * Matrix.diagonal (fun i => d i ^ k) * P⁻¹ := by
  induction k with
  | zero =>
      simp [Matrix.mul_nonsing_inv _ hP]
  | succ k ih =>
      rw [pow_succ, ih]
      simp only [Matrix.mul_assoc]
      rw [← Matrix.mul_assoc P⁻¹ P, Matrix.nonsing_inv_mul _ hP, Matrix.one_mul,
        ← Matrix.mul_assoc (Matrix.diagonal fun i => d i ^ k),
        Matrix.diagonal_mul_diagonal]
      have hfun : (fun i => d i ^ k * d i) = fun i => d i ^ (k + 1) :=
        funext fun i => (pow_succ _ _).symm
      rw [hfun]

/-- Trace of any power of a conjugated diagonal matrix is the corresponding
power sum of the diagonal entries. -/
lemma trace_pow_conj_diag {n : ℕ} (P : Matrix (Fin n) (Fin n) ℝ) (d : Fin n → ℝ)
    (hP : IsUnit P.det) (k : ℕ) :
    ((P * Matrix.diagonal d * P⁻¹) ^ k).trace = ∑ i, d i ^ k := by
  rw [diag_conj_pow P d hP k, trace_conj _ _ hP, Matrix.trace_diagonal]

/-! ### Newton's identities for four numbers

The first four power sums of four real numbers determine their elementary
symmetric functions, hence the monic quartic having them as roots. -/

/-- Second elementary symmetric function from the first two power sums. -/
lemma newton_e2 (e0 e1 e2 e3 s1 s2 : ℝ)
    (h1 : e0 + e1 + e2 + e3 = s1) (h2 : e0^2 + e1^2 + e2^2 + e3^2 = s2) :
    e0*e1 + e0*e2 + e0*e3 + e1*e2 + e1*e3 + e2*e3 = (s1^2 - s2)/2 := by
  linear_combination ((e0 + e1 + e2 + e3 + s1)/2) * h1 - (1/2) * h2

/-- Third elementary symmetric function from the first three power sums. -/
lemma newton_e3 (e0 e1 e2 e3 s1 s2 s3 : ℝ)
    (h1 : e0 + e1 + e2 + e3 = s1) (h2 : e0^2 + e1^2 + e2^2 + e3^2 = s2)
    (h3 : e0^3 + e1^3 + e2^3 + e3^3 = s3) :
    e0*e1*e2 + e0*e1*e3 + e0*e2*e3 + e1*e2*e3 = (s1^3 - 3*s1*s2 + 2*s3)/6 := by
  linear_combination
    (((e0 + e1 + e2 + e3)^2 + (e0 + e1 + e2 + e3)*s1 + s1^2)/6 -
      (e0^2 + e1^2 + e2^2 + e3^2)/2) * h1 -
    (s1/2) * h2 + (1/3) * h3

/-- Fourth elementary symmetric function from the first four power sums. -/
lemma newton_e4 (e0 e1 e2 e3 s1 s2 s3 s4 : ℝ)
    (h1 : e0 + e1 + e2 + e3 = s1) (h2 : e0^2 + e1^2 + e2^2 + e3^2 = s2)
    (h3 : e0^3 + e1^3 + e2^3 + e3^3 = s3) (h4 : e0^4 + e1^4 + e2^4 + e3^4 = s4) :
    e0*e1*e2*e3 = (s1^4 - 6*s1^2*s2 + 3*s2^2 + 8*s1*s3 - 6*s4)/24 := by
  linear_combination
    (((e0 + e1 + e2 + e3)^3 + (e0 + e1 + e2 + e3)^2*s1 +
        (e0 + e1 + e2 + e3)*s1^2 + s1^3 -
        6*(e0^2 + e1^2 + e2^2 + e3^2)*((e0 + e1 + e2 + e3) + s1) +
        8*(e0^3 + e1^3 + e2^3 + e3^3))/24) * h1 +
    ((-6*s1^2 + 3*((e0^2 + e1^2 + e2^2 + e3^2) + s2))/24) * h2 +
    (s1/3) * h3 - (1/4) * h4

/-- Evaluating the quartic `(c - e0)(c - e1)(c - e2)(c - e3)` from the
elementary symmetric functions of its roots. -/
lemma quartic_eval (e0 e1 e2 e3 v1 v2 v3 v4 c : ℝ)
    (h1 : e0 + e1 + e2 + e3 = v1)
    (h2 : e0*e1 + e0*e2 + e0*e3 + e1*e2 + e1*e3 + e2*e3 = v2)
    (h3 : e0*e1*e2 + e0*e1*e3 + e0*e2*e3 + e1*e2*e3 = v3)
    (h4 : e0*e1*e2*e3 = v4) :
    (c - e0)*(c - e1)*(c - e2)*(c - e3) = c^4 - v1*c^3 + v2*c^2 - v3*c + v4 := by
  linear_combination (-c^3) * h1 + c^2 * h2 + (-c) * h3 + h4

/-! ### Intermediate value helpers and root bookkeeping -/

/-- A continuous function positive at `a` and negative at `b > a` has a root
strictly between them. -/
lemma exists_root_of_pos_neg (g : ℝ → ℝ) (hg : Continuous g) {a b : ℝ}
    (hab : a < b) (ha : 0 < g a) (hb : g b < 0) :
    ∃ r, a < r ∧ r < b ∧ g r = 0 := by
  obtain ⟨r, hr, hgr⟩ :=
    intermediate_value_Ioo' hab.le hg.continuousOn (Set.mem_Ioo.mpr ⟨hb, ha⟩)
  exact ⟨r, hr.1, hr.2, hgr⟩

/-- A continuous function negative at `a` and positive at `b > a` has a root
strictly between them. -/
lemma exists_root_of_neg_pos (g : ℝ → ℝ) (hg : Continuous g) {a b : ℝ}
    (hab : a < b) (ha : g a < 0) (hb : 0 < g b) :
    ∃ r, a < r ∧ r < b ∧ g r = 0 := by
  obtain ⟨r, hr, hgr⟩ :=
    intermediate_value_Ioo hab.le hg.continuousOn (Set.mem_Ioo.mpr ⟨ha, hb⟩)
  exact ⟨r, hr.1, hr.2, hgr⟩

/-- The quartic product map is continuous. -/
lemma quartic_prod_continuous (e0 e1 e2 e3 : ℝ) :
    Continuous fun t : ℝ => (t - e0)*(t - e1)*(t - e2)*(t - e3) := by
  fun_prop

/-- A root of the quartic product is one of the four factors' roots. -/
lemma eq_of_quartic_prod_eq_zero {e0 e1 e2 e3 r : ℝ}
    (h : (r - e0)*(r - e1)*(r - e2)*(r - e3) = 0) :
    r = e0 ∨ r = e1 ∨ r = e2 ∨ r = e3 := by
  rcases mul_eq_zero.mp h with h' | h3
  · rcases mul_eq_zero.mp h' with h'' | h2
    · rcases mul_eq_zero.mp h'' with h0 | h1
      · exact Or.inl (sub_eq_zero.mp h0)
      · exact Or.inr (Or.inl (sub_eq_zero.mp h1))
    · exact Or.inr (Or.inr (Or.inl (sub_eq_zero.mp h2)))
  · exact Or.inr (Or.inr (Or.inr (sub_eq_zero.mp h3)))

/-- Four strictly increasing values, each equal to one of `e0, e1, e2, e3`,
exhaust the multiset `{e0, e1, e2, e3}`. -/
lemma multiset_eq_of_four_mem {e0 e1 e2 e3 r0 r1 r2 r3 : ℝ}
    (h01 : r0 < r1) (h12 : r1 < r2) (h23 : r2 < r3)
    (m0 : r0 = e0 ∨ r0 = e1 ∨ r0 = e2 ∨ r0 = e3)
    (m1 : r1 = e0 ∨ r1 = e1 ∨ r1 = e2 ∨ r1 = e3)
    (m2 : r2 = e0 ∨ r2 = e1 ∨ r2 = e2 ∨ r2 = e3)
    (m3 : r3 = e0 ∨ r3 = e1 ∨ r3 = e2 ∨ r3 = e3) :
    ({e0, e1, e2, e3} : Multiset ℝ) = {r0, r1, r2, r3} := by
  classical
  have hnd : ({r0, r1, r2, r3} : Multiset ℝ).Nodup := by
    refine Multiset.nodup_cons.mpr ⟨?_, Multiset.nodup_cons.mpr ⟨?_,
      Multiset.nodup_cons.mpr ⟨?_, Multiset.nodup_singleton r3⟩⟩⟩
    · simp only [Multiset.insert_eq_cons, Multiset.mem_cons, Multiset.mem_singleton]
      push_neg
      exact ⟨h01.ne, (h01.trans h12).ne, ((h01.trans h12).trans h23).ne⟩
    · simp only [Multiset.insert_eq_cons, Multiset.mem_cons, Multiset.mem_singleton]
      push_neg
      exact ⟨h12.ne, (h12.trans h23).ne⟩
    · simp only [Multiset.insert_eq_cons, Multiset.mem_singleton]
      exact h23.ne
  have hsub : ({r0, r1, r2, r3} : Multiset ℝ) ⊆ {e0, e1, e2, e3} := by
    intro x hx
    simp only [Multiset.insert_eq_cons, Multiset.mem_cons,
      Multiset.mem_singleton] at hx ⊢
    rcases hx with rfl | rfl | rfl | rfl
    · exact m0
    · exact m1
    · exact m2
    · exact m3
  have hle := (Multiset.le_iff_subset hnd).mpr hsub
  have hcard : Multiset.card ({e0, e1, e2, e3} : Multiset ℝ) ≤
      Multiset.card ({r0, r1, r2, r3} : Multiset ℝ) := by
    simp [Multiset.insert_eq_cons]
  exact (Multiset.eq_of_le_of_card_le hle hcard).symm

/-- Equal four-element multisets have equal square-root sums. -/
lemma sum_sqrt_of_multiset_eq {e0 e1 e2 e3 r0 r1 r2 r3 : ℝ}
    (h : ({e0, e1, e2, e3} : Multiset ℝ) = {r0, r1, r2, r3}) :
    Real.sqrt e0 + Real.sqrt e1 + Real.sqrt e2 + Real.sqrt e3 =
      Real.sqrt r0 + Real.sqrt r1 + Real.sqrt r2 + Real.sqrt r3 := by
  have h' := congrArg (fun s : Multiset ℝ => (s.map Real.sqrt).sum) h
  simp only [Multiset.insert_eq_cons, Multiset.map_cons, Multiset.sum_cons,
    Multiset.map_singleton, Multiset.sum_singleton] at h'
  linarith

/-! ### Existence of principal square roots for the script's inputs -/

/-- Every real positive semidefinite matrix is a conjugated nonnegative
diagonal with an invertible conjugating matrix (spectral theorem). -/
lemma posSemidef_exists_conj_diag {n : ℕ} {M : Matrix (Fin n) (Fin n) ℝ}
    (hM : M.PosSemidef) :
    ∃ (P : Matrix (Fin n) (Fin n) ℝ) (d : Fin n → ℝ), IsUnit P.det ∧
      (∀ i, 0 ≤ d i) ∧ M = P * Matrix.diagonal d * P⁻¹ := by
  have hmem := (hM.1.eigenvectorUnitary).2
  set V : Matrix (Fin n) (Fin n) ℝ := (hM.1.eigenvectorUnitary :
    Matrix (Fin n) (Fin n) ℝ) with hV
  have hVV : V * star V = 1 := Matrix.mem_unitaryGroup_iff.mp hmem
  have hVV' : star V * V = 1 := Matrix.mem_unitaryGroup_iff'.mp hmem
  have hdet : IsUnit V.det := by
    have h := congrArg Matrix.det hVV
    rw [Matrix.det_mul, Matrix.det_one] at h
    exact isUnit_of_mul_eq_one _ _ h
  have hinv : V⁻¹ = star V := Matrix.inv_eq_left_inv hVV'
  refine ⟨V, hM.1.eigenvalues, hdet, fun i => hM.eigenvalues_nonneg i, ?_⟩
  have hst := hM.1.spectral_theorem
  rw [RCLike.ofReal_real_eq_id, Function.id_comp] at hst
  rw [hinv]
  exact hst

/-- The product `A * B` of a factored matrix `A = R * Rᴴ` (with `R`
invertible) and a positive semidefinite `B` has a principal square root. -/
lemma exists_isPrincipalSqrt_mul {n : ℕ}
    {A B R : Matrix (Fin n) (Fin n) ℝ} (hB : B.PosSemidef)
    (hR : IsUnit R.det) (hRRt : R * Rᴴ = A) :
    ∃ S, IsPrincipalSqrt (A * B) S := by
  have hC : (Rᴴ * B * R).PosSemidef := hB.conjTranspose_mul_mul_same R
  obtain ⟨U, e, hUdet, he, hCeq⟩ := posSemidef_exists_conj_diag hC
  have hPdet : IsUnit (R * U).det := by
    rw [Matrix.det_mul]
    exact hR.mul hUdet
  refine ⟨R * U * Matrix.diagonal (fun i => Real.sqrt (e i)) * (R * U)⁻¹,
    ?_, R * U, fun i => Real.sqrt (e i), hPdet, fun i => Real.sqrt_nonneg _, rfl⟩
  have hsq : (R * U * Matrix.diagonal (fun i => Real.sqrt (e i)) * (R * U)⁻¹) *
      (R * U * Matrix.diagonal (fun i => Real.sqrt (e i)) * (R * U)⁻¹) =
      R * U * Matrix.diagonal e * (R * U)⁻¹ := by
    have h2 := diag_conj_pow (R * U) (fun i => Real.sqrt (e i)) hPdet 2
    rw [pow_two] at h2
    rw [h2]
    have hfun : (fun i => Real.sqrt (e i) ^ 2) = e :=
      funext fun i => Real.sq_sqrt (he i)
    rw [hfun]
  rw [hsq, Matrix.mul_inv_rev]
  have hUinv : U * (Matrix.diagonal e * (U⁻¹ * R⁻¹)) =
      (U * Matrix.diagonal e * U⁻¹) * R⁻¹ := by
    simp only [Matrix.mul_assoc]
  calc R * U * Matrix.diagonal e * (U⁻¹ * R⁻¹)
      = R * ((U * Matrix.diagonal e * U⁻¹) * R⁻¹) := by
        simp only [Matrix.mul_assoc]
    _ = R * ((Rᴴ * B * R) * R⁻¹) := by rw [← hCeq]
    _ = R * Rᴴ * B * (R * R⁻¹) := by simp only [Matrix.mul_assoc]
    _ = A * B := by rw [Matrix.mul_nonsing_inv _ hR, hRRt, Matrix.mul_one]

/-- When a principal square root exists, `sqrtm` returns one. -/
lemma sqrtm_spec {n : ℕ} {M : Matrix (Fin n) (Fin n) ℝ}
    (h : ∃ S, IsPrincipalSqrt M S) : IsPrincipalSqrt M (sqrtm M) := by
  rw [sqrtm]
  split
  · exact Exists.choose_spec h
  · exact absurd h (by assumption)

/-! ### Exact matrix power data for the two covariance products -/

/-- The product `sigma_real * sigma1`, computed exactly. -/
noncomputable def MI1 : Matrix (Fin 4) (Fin 4) ℝ :=
  !![1529/10000, 23/500, 37/1000, 17/1000;
     53/500, 33/400, 7/100, 69/2000;
     67/1000, 7/100, 57/400, 61/1000;
     7/250, 4/125, 7/125, 429/10000]

/-- The second power of `sigma_real * sigma1`, computed exactly. -/
noncomputable def MI2 : Matrix (Fin 4) (Fin 4) ℝ :=
  !![3120941/100000000, 17453/1250000, 75509/5000000, 35863/5000000;
     76521/2500000, 14149/800000, 5401/250000, 103983/10000000;
     144599/5000000, 1299/62500, 24881/800000, 74317/5000000;
     15783/1250000, 5763/625000, 17073/1250000, 683641/100000000]

/-- The third power of `sigma_real * sigma1`, computed exactly. -/
noncomputable def MI3 : Matrix (Fin 4) (Fin 4) ℝ :=
  !![7464586589/1000000000000, 193709003/50000000000, 468578827/100000000000, 224117711/100000000000;
     414669363/50000000000, 37697021/8000000000, 60314231/10000000000, 578889899/200000000000;
     912490037/100000000000, 56977071/10000000000, 62313529/8000000000, 374350071/100000000000;
     100362841/25000000000, 15727397/6250000000, 21511211/6250000000, 1659210789/1000000000000]

/-- The fourth power of `sigma_real * sigma1`, computed exactly. -/
noncomputable def MI4 : Matrix (Fin 4) (Fin 4) ℝ :=
  !![19286991489881/10000000000000000, 66419605279/62500000000000, 335153263657/250000000000000, 160634191643/250000000000000;
     281586796733/125000000000000, 102805467509/80000000000000, 20728390323/12500000000000, 397822339459/500000000000000;
     656462011107/250000000000000, 9717760339/6250000000000, 164484526861/80000000000000, 246857760081/250000000000000;
     72350867043/62500000000000, 21446549259/31250000000000, 56753454129/62500000000000, 4361915255281/10000000000000000]

/-- Exact value of the covariance product for set I. -/
lemma hMI1 : sigma_real * sigma1 = MI1 := by
  ext i j
  fin_cases i <;> fin_cases j <;>
    norm_num [sigma_real, sigma1, MI1, Matrix.mul_apply, Fin.sum_univ_four,
      Matrix.vecHead, Matrix.vecTail, Matrix.vecMul, Matrix.dotProduct]

/-- Exact square of the covariance product for set I. -/
lemma hMI2 : MI1 * MI1 = MI2 := by
  ext i j
  fin_cases i <;> fin_cases j <;>
    norm_num [MI1, MI2, Matrix.mul_apply, Fin.sum_univ_four,
      Matrix.vecHead, Matrix.vecTail, Matrix.vecMul, Matrix.dotProduct]

/-- Exact cube of the covariance product for set I. -/
lemma hMI3 : MI2 * MI1 = MI3 := by
  ext i j
  fin_cases i <;> fin_cases j <;>
    norm_num [MI1, MI2, MI3, Matrix.mul_apply, Fin.sum_univ_four,
      Matrix.vecHead, Matrix.vecTail, Matrix.vecMul, Matrix.dotProduct]

/-- Exact fourth power of the covariance product for set I. -/
lemma hMI4 : MI3 * MI1 = MI4 := by
  ext i j
  fin_cases i <;> fin_cases j <;>
    norm_num [MI1, MI3, MI4, Matrix.mul_apply, Fin.sum_univ_four,
      Matrix.vecHead, Matrix.vecTail, Matrix.vecMul, Matrix.dotProduct]

/-- Power sum 1 of the eigenvalues of the set-I covariance product. -/
lemma trMI1 : (MI1).trace = 263/625 := by
  norm_num [MI1, Matrix.trace, Matrix.diag, Fin.sum_univ_four]

/-- Power sum 2 of the eigenvalues of the set-I covariance product. -/
lemma trMI2 : (MI2).trace = 2170833/25000000 := by
  norm_num [MI2, Matrix.trace, Matrix.diag, Fin.sum_univ_four]

/-- Power sum 3 of the eigenvalues of the set-I covariance product. -/
lemma trMI3 : (MI3).trace = 675784879/31250000000 := by
  norm_num [MI3, Matrix.trace, Matrix.diag, Fin.sum_univ_four]

/-- Power sum 4 of the eigenvalues of the set-I covariance product. -/
lemma trMI4 : (MI4).trace = 14265039010353/2500000000000000 := by
  norm_num [MI4, Matrix.trace, Matrix.diag, Fin.sum_univ_four]

/-- First power of the set-I covariance product. -/
lemma powMI1 : (sigma_real * sigma1) ^ 1 = MI1 := by
  rw [pow_one, hMI1]

/-- Second power of the set-I covariance product. -/
lemma powMI2 : (sigma_real * sigma1) ^ 2 = MI2 := by
  rw [pow_two, hMI1, hMI2]

/-- Third power of the set-I covariance product. -/
lemma powMI3 : (sigma_real * sigma1) ^ 3 = MI3 := by
  rw [pow_succ, powMI2, hMI1, hMI3]

/-- Fourth power of the set-I covariance product. -/
lemma powMI4 : (sigma_real * sigma1) ^ 4 = MI4 := by
  rw [pow_succ, powMI3, hMI1, hMI4]

/-- The product `sigma_real * sigma2`, computed exactly. -/
noncomputable def MII1 : Matrix (Fin 4) (Fin 4) ℝ :=
  !![877/10000, 23/500, 31/1000, 27/2000;
     121/2000, 43/400, 23/400, 31/1000;
     23/500, 31/400, 39/400, 91/2000;
     7/400, 9/250, 9/250, 477/10000]

/-- The second power of `sigma_real * sigma2`, computed exactly. -/
noncomputable def MII2 : Matrix (Fin 4) (Fin 4) ℝ :=
  !![606827/50000000, 118677/10000000, 44361/5000000, 11661/2500000;
     149971/10000000, 39823/2000000, 14779/1000000, 41221/5000000;
     70021/5000000, 39283/2000000, 34053/2000000, 96301/10000000;
     12407/2000000, 45911/5000000, 78397/10000000, 263277/50000000]

/-- The third power of `sigma_real * sigma2`, computed exactly. -/
noncomputable def MII3 : Matrix (Fin 4) (Fin 4) ℝ :=
  !![142007413/62500000000, 268957249/100000000000, 209158339/100000000000, 115791897/100000000000;
     83599973/25000000000, 85450331/20000000000, 66951301/20000000000, 188541019/100000000000;
     84205621/25000000000, 22109459/5000000000, 17851419/5000000000, 25400059/12500000000;
     1940429/1250000000, 206958369/100000000000, 167421519/100000000000, 488134029/500000000000]

/-- The fourth power of `sigma_real * sigma2`, computed exactly. -/
noncomputable def MII4 : Matrix (Fin 4) (Fin 4) ℝ :=
  !![4672464409/9765625000000, 37339330893/62500000000000, 117675139617/250000000000000, 33056265939/125000000000000;
     46171164199/62500000000000, 47021526883/50000000000000, 4647475171/6250000000000, 104960068577/250000000000000;
     95338863721/125000000000000, 24503521889/25000000000000, 4874553681/6250000000000, 27620263699/62500000000000;
     8886222541/25000000000000, 114696340297/250000000000000, 45688166561/125000000000000, 259823131377/1250000000000000]

/-- Exact value of the covariance product for set II. -/
lemma hMII1 : sigma_real * sigma2 = MII1 := by
  ext i j
  fin_cases i <;> fin_cases j <;>
    norm_num [sigma_real, sigma2, MII1, Matrix.mul_apply, Fin.sum_univ_four,
      Matrix.vecHead, Matrix.vecTail, Matrix.vecMul, Matrix.dotProduct]

/-- Exact square of the covariance product for set II. -/
lemma hMII2 : MII1 * MII1 = MII2 := by
  ext i j
  fin_cases i <;> fin_cases j <;>
    norm_num [MII1, MII2, Matrix.mul_apply, Fin.sum_univ_four,
      Matrix.vecHead, Matrix.vecTail, Matrix.vecMul, Matrix.dotProduct]

/-- Exact cube of the covariance product for set II. -/
lemma hMII3 : MII2 * MII1 = MII3 := by
  ext i j
  fin_cases i <;> fin_cases j <;>
    norm_num [MII1, MII2, MII3, Matrix.mul_apply, Fin.sum_univ_four,
      Matrix.vecHead, Matrix.vecTail, Matrix.vecMul, Matrix.dotProduct]

/-- Exact fourth power of the covariance product for set II. -/
lemma hMII4 : MII3 * MII1 = MII4 := by
  ext i j
  fin_cases i <;> fin_cases j <;>
    norm_num [MII1, MII3, MII4, Matrix.mul_apply, Fin.sum_univ_four,
      Matrix.vecHead, Matrix.vecTail, Matrix.vecMul, Matrix.dotProduct]

/-- Power sum 1 of the eigenvalues of the set-II covariance product. -/
lemma trMII1 : (MII1).trace = 851/2500 := by
  norm_num [MII1, Matrix.trace, Matrix.diag, Fin.sum_univ_four]

/-- Power sum 2 of the eigenvalues of the set-II covariance product. -/
lemma trMII2 : (MII2).trace = 679251/12500000 := by
  norm_num [MII2, Matrix.trace, Matrix.diag, Fin.sum_univ_four]

/-- Power sum 3 of the eigenvalues of the set-II covariance product. -/
lemma trMII3 : (MII3).trace = 1386398377/125000000000 := by
  norm_num [MII3, Matrix.trace, Matrix.diag, Fin.sum_univ_four]

/-- Power sum 4 of the eigenvalues of the set-II covariance product. -/
lemma trMII4 : (MII4).trace = 752086871001/312500000000000 := by
  norm_num [MII4, Matrix.trace, Matrix.diag, Fin.sum_univ_four]

/-- First power of the set-II covariance product. -/
lemma powMII1 : (sigma_real * sigma2) ^ 1 = MII1 := by
  rw [pow_one, hMII1]

/-- Second power of the set-II covariance product. -/
lemma powMII2 : (sigma_real * sigma2) ^ 2 = MII2 := by
  rw [pow_two, hMII1, hMII2]

/-- Third power of the set-II covariance product. -/
lemma powMII3 : (sigma_real * sigma2) ^ 3 = MII3 := by
  rw [pow_succ, powMII2, hMII1, hMII3]

/-- Fourth power of the set-II covariance product. -/
lemma powMII4 : (sigma_real * sigma2) ^ 4 = MII4 := by
  rw [pow_succ, powMII3, hMII1, hMII4]

/-- Root of the quartic product in an interval with a positive-to-negative
sign change. -/
lemma exists_quartic_root_pos_neg (e0 e1 e2 e3 a b : ℝ) (hab : a < b)
    (ha : 0 < (a - e0)*(a - e1)*(a - e2)*(a - e3))
    (hb : (b - e0)*(b - e1)*(b - e2)*(b - e3) < 0) :
    ∃ r, a < r ∧ r < b ∧ (r - e0)*(r - e1)*(r - e2)*(r - e3) = 0 :=
  exists_root_of_pos_neg _ (quartic_prod_continuous e0 e1 e2 e3) hab ha hb

/-- Root of the quartic product in an interval with a negative-to-positive
sign change. -/
lemma exists_quartic_root_neg_pos (e0 e1 e2 e3 a b : ℝ) (hab : a < b)
    (ha : (a - e0)*(a - e1)*(a - e2)*(a - e3) < 0)
    (hb : 0 < (b - e0)*(b - e1)*(b - e2)*(b - e3)) :
    ∃ r, a < r ∧ r < b ∧ (r - e0)*(r - e1)*(r - e2)*(r - e3) = 0 :=
  exists_root_of_neg_pos _ (quartic_prod_continuous e0 e1 e2 e3) hab ha hb

/-- Four nonnegative reals with the power sums of the set-I covariance
product have their square roots summing strictly between the stated decimal
bounds (each eigenvalue is isolated in a tight rational interval by sign
changes of the characteristic quartic). -/
lemma isolate_I (e0 e1 e2 e3 : ℝ)
    (h1 : e0 + e1 + e2 + e3 = 263/625)
    (h2 : e0^2 + e1^2 + e2^2 + e3^2 = 2170833/25000000)
    (h3 : e0^3 + e1^3 + e2^3 + e3^3 = 675784879/31250000000)
    (h4 : e0^4 + e1^4 + e2^4 + e3^4 = 14265039010353/2500000000000000) :
    17725539/15625000 < Real.sqrt e0 + Real.sqrt e1 + Real.sqrt e2 + Real.sqrt e3 ∧
      Real.sqrt e0 + Real.sqrt e1 + Real.sqrt e2 + Real.sqrt e3 < 1134434597/1000000000 := by
  have hE2 := newton_e2 e0 e1 e2 e3 _ _ h1 h2
  have hE3 := newton_e3 e0 e1 e2 e3 _ _ _ h1 h2 h3
  have hE4 := newton_e4 e0 e1 e2 e3 _ _ _ _ h1 h2 h3 h4
  obtain ⟨r0, hr0a, hr0b, hr0z⟩ :=
    exists_quartic_root_pos_neg e0 e1 e2 e3 (15790957/1000000000) (15790967/1000000000) (by norm_num)
      (by rw [quartic_eval e0 e1 e2 e3 _ _ _ _ (15790957/1000000000) h1 hE2 hE3 hE4]; norm_num)
      (by rw [quartic_eval e0 e1 e2 e3 _ _ _ _ (15790967/1000000000) h1 hE2 hE3 hE4]; norm_num)
  have hs0l : (62831037/500000000 : ℝ) < Real.sqrt r0 := by
    have hu : ((62831037/500000000 : ℝ)) ^ 2 < 15790957/1000000000 := by norm_num
    exact (Real.lt_sqrt (by norm_num)).mpr (by linarith)
  have hs0h : Real.sqrt r0 < 25132423/200000000 := by
    have hv : ((15790967/1000000000) : ℝ) < (25132423/200000000 : ℝ) ^ 2 := by norm_num
    exact (Real.sqrt_lt' (by norm_num)).mpr (by linarith)
  obtain ⟨r1, hr1a, hr1b, hr1z⟩ :=
    exists_quartic_root_neg_pos e0 e1 e2 e3 (25758499/1000000000) (25758509/1000000000) (by norm_num)
      (by rw [quartic_eval e0 e1 e2 e3 _ _ _ _ (25758499/1000000000) h1 hE2 hE3 hE4]; norm_num)
      (by rw [quartic_eval e0 e1 e2 e3 _ _ _ _ (25758509/1000000000) h1 hE2 hE3 hE4]; norm_num)
  have hs1l : (32098909/200000000 : ℝ) < Real.sqrt r1 := by
    have hu : ((32098909/200000000 : ℝ)) ^ 2 < 25758499/1000000000 := by norm_num
    exact (Real.lt_sqrt (by norm_num)).mpr (by linarith)
  have hs1h : Real.sqrt r1 < 160494577/1000000000 := by
    have hv : ((25758509/1000000000) : ℝ) < (160494577/1000000000 : ℝ) ^ 2 := by norm_num
    exact (Real.sqrt_lt' (by norm_num)).mpr (by linarith)
  obtain ⟨r2, hr2a, hr2b, hr2z⟩ :=
    exists_quartic_root_pos_neg e0 e1 e2 e3 (52972187/500000000) (1655381/15625000) (by norm_num)
      (by rw [quartic_eval e0 e1 e2 e3 _ _ _ _ (52972187/500000000) h1 hE2 hE3 hE4]; norm_num)
      (by rw [quartic_eval e0 e1 e2 e3 _ _ _ _ (1655381/15625000) h1 hE2 hE3 hE4]; norm_num)
  have hs2l : (325490973/1000000000 : ℝ) < Real.sqrt r2 := by
    have hu : ((325490973/1000000000 : ℝ)) ^ 2 < 52972187/500000000 := by norm_num
    exact (Real.lt_sqrt (by norm_num)).mpr (by linarith)
  have hs2h : Real.sqrt r2 < 32549099/100000000 := by
    have hv : ((1655381/15625000) : ℝ) < (32549099/100000000 : ℝ) ^ 2 := by norm_num
    exact (Real.sqrt_lt' (by norm_num)).mpr (by linarith)
  obtain ⟨r3, hr3a, hr3b, hr3z⟩ :=
    exists_quartic_root_neg_pos e0 e1 e2 e3 (68326537/250000000) (136653079/500000000) (by norm_num)
      (by rw [quartic_eval e0 e1 e2 e3 _ _ _ _ (68326537/250000000) h1 hE2 hE3 hE4]; norm_num)
      (by rw [quartic_eval e0 e1 e2 e3 _ _ _ _ (136653079/500000000) h1 hE2 hE3 hE4]; norm_num)
  have hs3l : (65348363/125000000 : ℝ) < Real.sqrt r3 := by
    have hu : ((65348363/125000000 : ℝ)) ^ 2 < 68326537/250000000 := by norm_num
    exact (Real.lt_sqrt (by norm_num)).mpr (by linarith)
  have hs3h : Real.sqrt r3 < 104557383/200000000 := by
    have hv : ((136653079/500000000) : ℝ) < (104557383/200000000 : ℝ) ^ 2 := by norm_num
    exact (Real.sqrt_lt' (by norm_num)).mpr (by linarith)
  have h01 : r0 < r1 := by
    have hba : (15790967/1000000000 : ℝ) ≤ 25758499/1000000000 := by norm_num
    linarith
  have h12 : r1 < r2 := by
    have hba : (25758509/1000000000 : ℝ) ≤ 52972187/500000000 := by norm_num
    linarith
  have h23 : r2 < r3 := by
    have hba : (1655381/15625000 : ℝ) ≤ 68326537/250000000 := by norm_num
    linarith
  have hms := multiset_eq_of_four_mem h01 h12 h23
    (eq_of_quartic_prod_eq_zero hr0z) (eq_of_quartic_prod_eq_zero hr1z)
    (eq_of_quartic_prod_eq_zero hr2z) (eq_of_quartic_prod_eq_zero hr3z)
  have hsum := sum_sqrt_of_multiset_eq hms
  constructor
  · linarith
  · linarith

/-- Four nonnegative reals with the power sums of the set-II covariance
product have their square roots summing strictly between the stated decimal
bounds (each eigenvalue is isolated in a tight rational interval by sign
changes of the characteristic quartic). -/
lemma isolate_II (e0 e1 e2 e3 : ℝ)
    (h1 : e0 + e1 + e2 + e3 = 851/2500)
    (h2 : e0^2 + e1^2 + e2^2 + e3^2 = 679251/12500000)
    (h3 : e0^3 + e1^3 + e2^3 + e3^3 = 1386398377/125000000000)
    (h4 : e0^4 + e1^4 + e2^4 + e3^4 = 752086871001/312500000000000) :
    528902489/500000000 < Real.sqrt e0 + Real.sqrt e1 + Real.sqrt e2 + Real.sqrt e3 ∧
      Real.sqrt e0 + Real.sqrt e1 + Real.sqrt e2 + Real.sqrt e3 < 1057805071/1000000000 := by
  have hE2 := newton_e2 e0 e1 e2 e3 _ _ h1 h2
  have hE3 := newton_e3 e0 e1 e2 e3 _ _ _ h1 h2 h3
  have hE4 := newton_e4 e0 e1 e2 e3 _ _ _ _ h1 h2 h3 h4
  obtain ⟨r0, hr0a, hr0b, hr0z⟩ :=
    exists_quartic_root_pos_neg e0 e1 e2 e3 (24498439/1000000000) (24498449/1000000000) (by norm_num)
      (by rw [quartic_eval e0 e1 e2 e3 _ _ _ _ (24498439/1000000000) h1 hE2 hE3 hE4]; norm_num)
      (by rw [quartic_eval e0 e1 e2 e3 _ _ _ _ (24498449/1000000000) h1 hE2 hE3 hE4]; norm_num)
  have hs0l : (156519771/1000000000 : ℝ) < Real.sqrt r0 := by
    have hu : ((156519771/1000000000 : ℝ)) ^ 2 < 24498439/1000000000 := by norm_num
    exact (Real.lt_sqrt (by norm_num)).mpr (by linarith)
  have hs0h : Real.sqrt r0 < 39129951/250000000 := by
    have hv : ((24498449/1000000000) : ℝ) < (39129951/250000000 : ℝ) ^ 2 := by norm_num
    exact (Real.sqrt_lt' (by norm_num)).mpr (by linarith)
  obtain ⟨r1, hr1a, hr1b, hr1z⟩ :=
    exists_quartic_root_neg_pos e0 e1 e2 e3 (427597/12500000) (3420777/100000000) (by norm_num)
      (by rw [quartic_eval e0 e1 e2 e3 _ _ _ _ (427597/12500000) h1 hE2 hE3 hE4]; norm_num)
      (by rw [quartic_eval e0 e1 e2 e3 _ _ _ _ (3420777/100000000) h1 hE2 hE3 hE4]; norm_num)
  have hs1l : (184953399/1000000000 : ℝ) < Real.sqrt r1 := by
    have hu : ((184953399/1000000000 : ℝ)) ^ 2 < 427597/12500000 := by norm_num
    exact (Real.lt_sqrt (by norm_num)).mpr (by linarith)
  have hs1h : Real.sqrt r1 < 184953427/1000000000 := by
    have hv : ((3420777/100000000) : ℝ) < (184953427/1000000000 : ℝ) ^ 2 := by norm_num
    exact (Real.sqrt_lt' (by norm_num)).mpr (by linarith)
  obtain ⟨r2, hr2a, hr2b, hr2z⟩ :=
    exists_quartic_root_pos_neg e0 e1 e2 e3 (12110711/200000000) (12110713/200000000) (by norm_num)
      (by rw [quartic_eval e0 e1 e2 e3 _ _ _ _ (12110711/200000000) h1 hE2 hE3 hE4]; norm_num)
      (by rw [quartic_eval e0 e1 e2 e3 _ _ _ _ (12110713/200000000) h1 hE2 hE3 hE4]; norm_num)
  have hs2l : (246076319/1000000000 : ℝ) < Real.sqrt r2 := by
    have hu : ((246076319/1000000000 : ℝ)) ^ 2 < 12110711/200000000 := by norm_num
    exact (Real.lt_sqrt (by norm_num)).mpr (by linarith)
  have hs2h : Real.sqrt r2 < 12303817/50000000 := by
    have hv : ((12110713/200000000) : ℝ) < (12303817/50000000 : ℝ) ^ 2 := by norm_num
    exact (Real.sqrt_lt' (by norm_num)).mpr (by linarith)
  obtain ⟨r3, hr3a, hr3b, hr3z⟩ :=
    exists_quartic_root_neg_pos e0 e1 e2 e3 (8845609/40000000) (44228047/200000000) (by norm_num)
      (by rw [quartic_eval e0 e1 e2 e3 _ _ _ _ (8845609/40000000) h1 hE2 hE3 hE4]; norm_num)
      (by rw [quartic_eval e0 e1 e2 e3 _ _ _ _ (44228047/200000000) h1 hE2 hE3 hE4]; norm_num)
  have hs3l : (470255489/1000000000 : ℝ) < Real.sqrt r3 := by
    have hu : ((470255489/1000000000 : ℝ)) ^ 2 < 8845609/40000000 := by norm_num
    exact (Real.lt_sqrt (by norm_num)).mpr (by linarith)
  have hs3h : Real.sqrt r3 < 940511/2000000 := by
    have hv : ((44228047/200000000) : ℝ) < (940511/2000000 : ℝ) ^ 2 := by norm_num
    exact (Real.sqrt_lt' (by norm_num)).mpr (by linarith)
  have h01 : r0 < r1 := by
    have hba : (24498449/1000000000 : ℝ) ≤ 427597/12500000 := by norm_num
    linarith
  have h12 : r1 < r2 := by
    have hba : (3420777/100000000 : ℝ) ≤ 12110711/200000000 := by norm_num
    linarith
  have h23 : r2 < r3 := by
    have hba : (12110713/200000000 : ℝ) ≤ 8845609/40000000 := by norm_num
    linarith
  have hms := multiset_eq_of_four_mem h01 h12 h23
    (eq_of_quartic_prod_eq_zero hr0z) (eq_of_quartic_prod_eq_zero hr1z)
    (eq_of_quartic_prod_eq_zero hr2z) (eq_of_quartic_prod_eq_zero hr3z)
  have hsum := sum_sqrt_of_multiset_eq hms
  constructor
  · linarith
  · linarith

/-! ### Trace bounds for the principal square roots of the two products -/

/-- Any principal square root of the set-I covariance product
`sigma_real * sigma1` has trace strictly between the stated bounds. -/
lemma traceS_I (S : Matrix (Fin 4) (Fin 4) ℝ)
    (hS : IsPrincipalSqrt (sigma_real * sigma1) S) :
    (17725539/15625000 : ℝ) < S.trace ∧ S.trace < 1134434597/1000000000 := by
  obtain ⟨hSS, P, d, hP, hd, hform⟩ := hS
  have hMk : ∀ k : ℕ, ((sigma_real * sigma1) ^ k).trace = ∑ i, d i ^ (2 * k) := by
    intro k
    rw [← hSS, ← pow_two, ← pow_mul, hform, trace_pow_conj_diag P d hP]
  have key1 : d 0 ^ 2 + d 1 ^ 2 + d 2 ^ 2 + d 3 ^ 2 = 263/625 := by
    have h := hMk 1
    rw [powMI1, trMI1, Fin.sum_univ_four] at h
    norm_num at h
    linear_combination (-1 : ℝ) * h
  have key2 : (d 0 ^ 2) ^ 2 + (d 1 ^ 2) ^ 2 + (d 2 ^ 2) ^ 2 + (d 3 ^ 2) ^ 2 =
      2170833/25000000 := by
    have h := hMk 2
    rw [powMI2, trMI2, Fin.sum_univ_four] at h
    norm_num at h
    linear_combination (-1 : ℝ) * h
  have key3 : (d 0 ^ 2) ^ 3 + (d 1 ^ 2) ^ 3 + (d 2 ^ 2) ^ 3 + (d 3 ^ 2) ^ 3 =
      675784879/31250000000 := by
    have h := hMk 3
    rw [powMI3, trMI3, Fin.sum_univ_four] at h
    norm_num at h
    linear_combination (-1 : ℝ) * h
  have key4 : (d 0 ^ 2) ^ 4 + (d 1 ^ 2) ^ 4 + (d 2 ^ 2) ^ 4 + (d 3 ^ 2) ^ 4 =
      14265039010353/2500000000000000 := by
    have h := hMk 4
    rw [powMI4, trMI4, Fin.sum_univ_four] at h
    norm_num at h
    linear_combination (-1 : ℝ) * h
  have htr : S.trace = Real.sqrt (d 0 ^ 2) + Real.sqrt (d 1 ^ 2) +
      Real.sqrt (d 2 ^ 2) + Real.sqrt (d 3 ^ 2) := by
    rw [hform, trace_conj _ _ hP, Matrix.trace_diagonal, Fin.sum_univ_four,
      Real.sqrt_sq (hd 0), Real.sqrt_sq (hd 1), Real.sqrt_sq (hd 2),
      Real.sqrt_sq (hd 3)]
  obtain ⟨hlo, hhi⟩ := isolate_I (d 0 ^ 2) (d 1 ^ 2) (d 2 ^ 2) (d 3 ^ 2)
    key1 key2 key3 key4
  constructor
  · rw [htr]; exact hlo
  · rw [htr]; exact hhi

/-- Any principal square root of the set-II covariance product
`sigma_real * sigma2` has trace strictly between the stated bounds. -/
lemma traceS_II (S : Matrix (Fin 4) (Fin 4) ℝ)
    (hS : IsPrincipalSqrt (sigma_real * sigma2) S) :
    (528902489/500000000 : ℝ) < S.trace ∧ S.trace < 1057805071/1000000000 := by
  obtain ⟨hSS, P, d, hP, hd, hform⟩ := hS
  have hMk : ∀ k : ℕ, ((sigma_real * sigma2) ^ k).trace = ∑ i, d i ^ (2 * k) := by
    intro k
    rw [← hSS, ← pow_two, ← pow_mul, hform, trace_pow_conj_diag P d hP]
  have key1 : d 0 ^ 2 + d 1 ^ 2 + d 2 ^ 2 + d 3 ^ 2 = 851/2500 := by
    have h := hMk 1
    rw [powMII1, trMII1, Fin.sum_univ_four] at h
    norm_num at h
    linear_combination (-1 : ℝ) * h
  have key2 : (d 0 ^ 2) ^ 2 + (d 1 ^ 2) ^ 2 + (d 2 ^ 2) ^ 2 + (d 3 ^ 2) ^ 2 =
      679251/12500000 := by
    have h := hMk 2
    rw [powMII2, trMII2, Fin.sum_univ_four] at h
    norm_num at h
    linear_combination (-1 : ℝ) * h
  have key3 : (d 0 ^ 2) ^ 3 + (d 1 ^ 2) ^ 3 + (d 2 ^ 2) ^ 3 + (d 3 ^ 2) ^ 3 =
      1386398377/125000000000 := by
    have h := hMk 3
    rw [powMII3, trMII3, Fin.sum_univ_four] at h
    norm_num at h
    linear_combination (-1 : ℝ) * h
  have key4 : (d 0 ^ 2) ^ 4 + (d 1 ^ 2) ^ 4 + (d 2 ^ 2) ^ 4 + (d 3 ^ 2) ^ 4 =
      752086871001/312500000000000 := by
    have h := hMk 4
    rw [powMII4, trMII4, Fin.sum_univ_four] at h
    norm_num at h
    linear_combination (-1 : ℝ) * h
  have htr : S.trace = Real.sqrt (d 0 ^ 2) + Real.sqrt (d 1 ^ 2) +
      Real.sqrt (d 2 ^ 2) + Real.sqrt (d 3 ^ 2) := by
    rw [hform, trace_conj _ _ hP, Matrix.trace_diagonal, Fin.sum_univ_four,
      Real.sqrt_sq (hd 0), Real.sqrt_sq (hd 1), Real.sqrt_sq (hd 2),
      Real.sqrt_sq (hd 3)]
  obtain ⟨hlo, hhi⟩ := isolate_II (d 0 ^ 2) (d 1 ^ 2) (d 2 ^ 2) (d 3 ^ 2)
    key1 key2 key3 key4
  constructor
  · rw [htr]; exact hlo
  · rw [htr]; exact hhi

/-! ### An invertible square factor of the real covariance matrix -/

/-- A square factor of `sigma_real`: the triangular factor times the square
root of the diagonal factor, so `RA * RAᴴ = sigma_real`. -/
noncomputable def RA : Matrix (Fin 4) (Fin 4) ℝ :=
  LA * Matrix.diagonal (fun i => Real.sqrt (dA i))

/-- Exact rational inverse of the triangular factor `LA`. -/
noncomputable def LAinv : Matrix (Fin 4) (Fin 4) ℝ :=
  !![1, 0, 0, 0;
     -1/2, 1, 0, 0;
     -1/10, -3/10, 1, 0;
     1/365, -67/730, -83/365, 1]

/-- The triangular factor of `sigma_real` times its inverse is the identity. -/
lemma LA_mul_LAinv : LA * LAinv = 1 := by
  ext i j
  fin_cases i <;> fin_cases j <;>
    norm_num [LA, LAinv, Matrix.mul_apply, Fin.sum_univ_four, Matrix.one_apply,
      Matrix.vecHead, Matrix.vecTail, Matrix.vecMul, Matrix.dotProduct,
      Fin.ext_iff]

/-- The diagonal entries of the diagonal factor of `sigma_real` are positive. -/
lemma dA_pos : ∀ i, 0 < dA i := by
  intro i
  fin_cases i <;> norm_num [dA]

/-- The square factor `RA` really factors `sigma_real`. -/
lemma RA_factor : RA * RAᴴ = sigma_real := by
  have hstar : (star fun i => Real.sqrt (dA i)) = fun i : Fin 4 => Real.sqrt (dA i) := by
    funext i
    simp [Pi.star_apply]
  have hDst : (Matrix.diagonal fun i => Real.sqrt (dA i))ᴴ =
      Matrix.diagonal fun i => Real.sqrt (dA i) := by
    rw [Matrix.diagonal_conjTranspose, hstar]
  have hds : (Matrix.diagonal fun i => Real.sqrt (dA i)) *
      (Matrix.diagonal fun i => Real.sqrt (dA i)) = Matrix.diagonal dA := by
    rw [Matrix.diagonal_mul_diagonal,
      show (fun i => Real.sqrt (dA i) * Real.sqrt (dA i)) = dA from
        funext fun i => Real.mul_self_sqrt (dA_pos i).le]
  rw [RA, Matrix.conjTranspose_mul, hDst]
  simp only [Matrix.mul_assoc]
  rw [← Matrix.mul_assoc (Matrix.diagonal fun i => Real.sqrt (dA i)), hds,
    ← Matrix.mul_assoc]
  exact ldl_sigma_real

/-- The square factor `RA` is invertible. -/
lemma RA_det : IsUnit RA.det := by
  have hinv : RA * (Matrix.diagonal (fun i => (Real.sqrt (dA i))⁻¹) * LAinv) = 1 := by
    have hdd : (Matrix.diagonal fun i => Real.sqrt (dA i)) *
        Matrix.diagonal (fun i => (Real.sqrt (dA i))⁻¹) = 1 := by
      rw [Matrix.diagonal_mul_diagonal]
      have hfun : (fun i => Real.sqrt (dA i) * (Real.sqrt (dA i))⁻¹) =
          fun _ : Fin 4 => (1 : ℝ) := by
        funext i
        exact mul_inv_cancel₀ (Real.sqrt_pos.mpr (dA_pos i)).ne'
      rw [hfun, Matrix.diagonal_one]
    rw [RA]
    simp only [Matrix.mul_assoc]
    rw [← Matrix.mul_assoc (Matrix.diagonal fun i => Real.sqrt (dA i)), hdd,
      Matrix.one_mul]
    exact LA_mul_LAinv
  exact Matrix.isUnit_det_of_right_inverse hinv

/-- The first FID value in terms of the trace of the principal square root. -/
lemma fid1_repr :
    fid1 = 1/10 + (11/10 + 27/20) - 2 * (sqrtm (sigma_real * sigma1)).trace := by
  have hm : ∑ i, (mu_real - mu1) i ^ 2 = (1/10 : ℝ) := by
    norm_num [mu_real, mu1, Fin.sum_univ_four, Matrix.vecHead, Matrix.vecTail]
  have ht1 : sigma_real.trace = 11/10 := by
    norm_num [sigma_real, Matrix.trace, Matrix.diag, Fin.sum_univ_four]
  have ht2 : sigma1.trace = 27/20 := by
    norm_num [sigma1, Matrix.trace, Matrix.diag, Fin.sum_univ_four]
  simp only [fid1, calculate_fid]
  rw [Matrix.trace_sub, Matrix.trace_add, Matrix.trace_smul, hm, ht1, ht2,
    smul_eq_mul]
  ring

/-- The second FID value in terms of the trace of the principal square root. -/
lemma fid2_repr :
    fid2 = 11/50 + (11/10 + 11/10) - 2 * (sqrtm (sigma_real * sigma2)).trace := by
  have hm : ∑ i, (mu_real - mu2) i ^ 2 = (11/50 : ℝ) := by
    norm_num [mu_real, mu2, Fin.sum_univ_four, Matrix.vecHead, Matrix.vecTail]
  have ht1 : sigma_real.trace = 11/10 := by
    norm_num [sigma_real, Matrix.trace, Matrix.diag, Fin.sum_univ_four]
  have ht2 : sigma2.trace = 11/10 := by
    norm_num [sigma2, Matrix.trace, Matrix.diag, Fin.sum_univ_four]
  simp only [fid2, calculate_fid]
  rw [Matrix.trace_sub, Matrix.trace_add, Matrix.trace_smul, hm, ht1, ht2,
    smul_eq_mul]
  ring

/-- Strict numeric bounds on the two FID values. -/
lemma fid_bounds :
    (0.28105 < fid1 ∧ fid1 < 0.28115) ∧ (0.30435 < fid2 ∧ fid2 < 0.30445) := by
  have hex1 : ∃ S, IsPrincipalSqrt (sigma_real * sigma1) S :=
    exists_isPrincipalSqrt_mul sigma1_posSemidef RA_det RA_factor
  have hex2 : ∃ S, IsPrincipalSqrt (sigma_real * sigma2) S :=
    exists_isPrincipalSqrt_mul sigma2_posSemidef RA_det RA_factor
  have hb1 := traceS_I _ (sqrtm_spec hex1)
  have hb2 := traceS_II _ (sqrtm_spec hex2)
  have h0 : (0.28105 : ℝ) = 28105/100000 := by norm_num
  have h1 : (0.28115 : ℝ) = 28115/100000 := by norm_num
  have h2 : (0.30435 : ℝ) = 30435/100000 := by norm_num
  have h3 : (0.30445 : ℝ) = 30445/100000 := by norm_num
  rw [fid1_repr, fid2_repr, h0, h1, h2, h3]
  refine ⟨⟨?_, ?_⟩, ?_, ?_⟩
  · linarith [hb1.2]
  · linarith [hb1.1]
  · linarith [hb2.2]
  · linarith [hb2.1]

/-- C2: with the hard-coded arrays, the first computed distance is strictly
below the second, the two printed values are 0.2811 and 0.3044 to four
decimal places (each true value lies strictly inside the corresponding
rounding window), and the script prints the fixed text
"Based on FID score, Fake Image Set I is better". -/
theorem script_fid_values_and_message :
    fid1 < fid2 ∧ (0.28105 < fid1 ∧ fid1 < 0.28115) ∧
      (0.30435 < fid2 ∧ fid2 < 0.30445) ∧
      betterMessage = "Based on FID score, Fake Image Set I is better" := by
  obtain ⟨hb1, hb2⟩ := fid_bounds
  have hlt : fid1 < fid2 := by
    have ha : (0.28115 : ℝ) < 0.30435 := by norm_num
    exact lt_trans (lt_trans hb1.2 ha) hb2.1
  refine ⟨hlt, hb1, hb2, ?_⟩
  have hbet : better = "Set I" := by
    rw [better]
    exact if_pos hlt
  rw [betterMessage, hbet]
  rfl

/-! ### Characteristic polynomial tools for the identical-distributions case -/

/-- Characteristic matrix of a diagonal matrix. -/
lemma charmatrix_diagonal {n : ℕ} (v : Fin n → ℝ) :
    Matrix.charmatrix (Matrix.diagonal v) =
      Matrix.diagonal fun i => (Polynomial.X : Polynomial ℝ) - Polynomial.C (v i) := by
  refine Matrix.ext fun i j => ?_
  by_cases h : i = j
  · subst h
    rw [Matrix.charmatrix_apply_eq]
    simp
  · rw [Matrix.charmatrix_apply_ne _ _ _ h, Matrix.diagonal_apply_ne _ h,
      Matrix.diagonal_apply_ne _ h, map_zero, neg_zero]

/-- Characteristic polynomial of a diagonal matrix. -/
lemma charpoly_diagonal {n : ℕ} (v : Fin n → ℝ) :
    (Matrix.diagonal v).charpoly =
      ∏ i, ((Polynomial.X : Polynomial ℝ) - Polynomial.C (v i)) := by
  rw [Matrix.charpoly, charmatrix_diagonal, Matrix.det_diagonal]

/-- Conjugation by an invertible matrix preserves the characteristic
polynomial. -/
lemma charpoly_conj {n : ℕ} (P A : Matrix (Fin n) (Fin n) ℝ)
    (hP : IsUnit P.det) : (P * A * P⁻¹).charpoly = A.charpoly := by
  have hPQ : P.map (Polynomial.C : ℝ → Polynomial ℝ) *
      P⁻¹.map (Polynomial.C : ℝ → Polynomial ℝ) = 1 := by
    rw [← Matrix.map_mul, Matrix.mul_nonsing_inv _ hP,
      Matrix.map_one _ (map_zero Polynomial.C) (map_one Polynomial.C)]
  have hscal : P.map (Polynomial.C : ℝ → Polynomial ℝ) *
      Matrix.scalar (Fin n) (Polynomial.X : Polynomial ℝ) *
      P⁻¹.map (Polynomial.C : ℝ → Polynomial ℝ) =
      Matrix.scalar (Fin n) (Polynomial.X : Polynomial ℝ) := by
    rw [← (Matrix.scalar_commute (Polynomial.X : Polynomial ℝ)
      (fun r' => Commute.all _ r')
      (P.map (Polynomial.C : ℝ → Polynomial ℝ))).eq, Matrix.mul_assoc, hPQ,
      Matrix.mul_one]
  have hch : Matrix.charmatrix (P * A * P⁻¹) =
      P.map (Polynomial.C : ℝ → Polynomial ℝ) * Matrix.charmatrix A *
        P⁻¹.map (Polynomial.C : ℝ → Polynomial ℝ) := by
    rw [Matrix.charmatrix, Matrix.charmatrix, RingHom.mapMatrix_apply,
      RingHom.mapMatrix_apply, Matrix.map_mul, Matrix.map_mul,
      Matrix.mul_sub, Matrix.sub_mul, hscal]
  have hdet1 : (P.map (Polynomial.C : ℝ → Polynomial ℝ)).det *
      (P⁻¹.map (Polynomial.C : ℝ → Polynomial ℝ)).det = 1 := by
    rw [← Matrix.det_mul, hPQ, Matrix.det_one]
  rw [Matrix.charpoly, Matrix.charpoly, hch, Matrix.det_mul, Matrix.det_mul]
  calc (P.map (Polynomial.C : ℝ → Polynomial ℝ)).det *
        (Matrix.charmatrix A).det *
        (P⁻¹.map (Polynomial.C : ℝ → Polynomial ℝ)).det
      = (P.map (Polynomial.C : ℝ → Polynomial ℝ)).det *
        (P⁻¹.map (Polynomial.C : ℝ → Polynomial ℝ)).det *
        (Matrix.charmatrix A).det := by ring
    _ = (Matrix.charmatrix A).det := by rw [hdet1, one_mul]

/-- Two conjugated nonnegative diagonals with equal squares have equal traces
(uniqueness of the trace of the principal square root). -/
lemma trace_eq_of_conj_diag_sq_eq {n : ℕ}
    {P Q : Matrix (Fin n) (Fin n) ℝ} {d e : Fin n → ℝ}
    (hP : IsUnit P.det) (hQ : IsUnit Q.det)
    (hd : ∀ i, 0 ≤ d i) (he : ∀ i, 0 ≤ e i)
    (hsq : (P * Matrix.diagonal d * P⁻¹) * (P * Matrix.diagonal d * P⁻¹) =
      (Q * Matrix.diagonal e * Q⁻¹) * (Q * Matrix.diagonal e * Q⁻¹)) :
    (P * Matrix.diagonal d * P⁻¹).trace = (Q * Matrix.diagonal e * Q⁻¹).trace := by
  have hP2 : (P * Matrix.diagonal d * P⁻¹) * (P * Matrix.diagonal d * P⁻¹) =
      P * Matrix.diagonal (fun i => d i ^ 2) * P⁻¹ := by
    have h := diag_conj_pow P d hP 2
    rw [pow_two] at h
    exact h
  have hQ2 : (Q * Matrix.diagonal e * Q⁻¹) * (Q * Matrix.diagonal e * Q⁻¹) =
      Q * Matrix.diagonal (fun i => e i ^ 2) * Q⁻¹ := by
    have h := diag_conj_pow Q e hQ 2
    rw [pow_two] at h
    exact h
  have hchar : (∏ i, ((Polynomial.X : Polynomial ℝ) - Polynomial.C (d i ^ 2))) =
      ∏ i, ((Polynomial.X : Polynomial ℝ) - Polynomial.C (e i ^ 2)) := by
    rw [← charpoly_diagonal, ← charpoly_diagonal, ← charpoly_conj P _ hP,
      ← hP2, hsq, hQ2, charpoly_conj Q _ hQ]
  have hmul : (Finset.univ.val.map fun i => d i ^ 2) =
      (Finset.univ.val.map fun i => e i ^ 2) := by
    have h1 := Polynomial.roots_multiset_prod_X_sub_C
      (Finset.univ.val.map fun i : Fin n => d i ^ 2)
    have h2 := Polynomial.roots_multiset_prod_X_sub_C
      (Finset.univ.val.map fun i : Fin n => e i ^ 2)
    rw [← h1, ← h2]
    congr 1
    rw [Multiset.map_map, Multiset.map_map, ← Finset.prod_eq_multiset_prod,
      ← Finset.prod_eq_multiset_prod]
    exact hchar
  have hsums : ∑ i, Real.sqrt (d i ^ 2) = ∑ i, Real.sqrt (e i ^ 2) := by
    have h := congrArg (fun s : Multiset ℝ => (s.map Real.sqrt).sum) hmul
    simp only [Multiset.map_map] at h
    rw [Finset.sum_eq_multiset_sum, Finset.sum_eq_multiset_sum]
    exact h
  rw [trace_conj _ _ hP, trace_conj _ _ hQ, Matrix.trace_diagonal,
    Matrix.trace_diagonal]
  calc ∑ i, d i = ∑ i, Real.sqrt (d i ^ 2) :=
        Finset.sum_congr rfl fun i _ => (Real.sqrt_sq (hd i)).symm
    _ = ∑ i, Real.sqrt (e i ^ 2) := hsums
    _ = ∑ i, e i := Finset.sum_congr rfl fun i _ => Real.sqrt_sq (he i)

/-- C3: for every mean vector and every symmetric positive semidefinite
covariance matrix, the FID of a distribution with itself is zero. -/
theorem calculate_fid_self_eq_zero {n : ℕ} (mu : Fin n → ℝ)
    (sigma : Matrix (Fin n) (Fin n) ℝ) (hsig : sigma.PosSemidef) :
    calculate_fid mu sigma mu sigma = 0 := by
  obtain ⟨Q, e, hQ, he, hQeq⟩ := posSemidef_exists_conj_diag hsig
  have hex : ∃ S, IsPrincipalSqrt (sigma * sigma) S :=
    ⟨sigma, rfl, Q, e, hQ, he, hQeq⟩
  obtain ⟨hSS, P, d, hP, hd, hform⟩ := sqrtm_spec hex
  have htr : (sqrtm (sigma * sigma)).trace = sigma.trace := by
    rw [hform, hQeq]
    apply trace_eq_of_conj_diag_sq_eq hP hQ hd he
    rw [← hform, ← hQeq]
    exact hSS
  have hmean : ∑ i, (mu - mu) i ^ 2 = (0 : ℝ) := by simp
  simp only [calculate_fid]
  rw [Matrix.trace_sub, Matrix.trace_add, Matrix.trace_smul, htr, smul_eq_mul,
    hmean]
  ring

/-- Witness for C3 at the script's real statistics. -/
theorem calculate_fid_self_eq_zero_witness :
    sigma_real.PosSemidef ∧
      calculate_fid mu_real sigma_real mu_real sigma_real = 0 :=
  ⟨sigma_real_posSemidef,
    calculate_fid_self_eq_zero mu_real sigma_real sigma_real_posSemidef⟩

/-- C1: `calculate_fid` returns the squared Euclidean distance between the two
mean vectors plus the trace of
`real_sigma + x_sigma - 2 * sqrtm(real_sigma @ x_sigma)`, where `sqrtm` is the
principal matrix square root of the product of the two covariance matrices. -/
theorem calculate_fid_eq_sq_dist_add_trace {n : ℕ} (real_mu : Fin n → ℝ)
    (real_sigma : Matrix (Fin n) (Fin n) ℝ) (x_mu : Fin n → ℝ)
    (x_sigma : Matrix (Fin n) (Fin n) ℝ) :
    calculate_fid real_mu real_sigma x_mu x_sigma =
      dist ((WithLp.equiv 2 (Fin n → ℝ)).symm real_mu)
          ((WithLp.equiv 2 (Fin n → ℝ)).symm x_mu) ^ 2 +
        Matrix.trace (real_sigma + x_sigma -
          (2 : ℝ) • sqrtm (real_sigma * x_sigma)) := by
  have hdist : dist ((WithLp.equiv 2 (Fin n → ℝ)).symm real_mu)
      ((WithLp.equiv 2 (Fin n → ℝ)).symm x_mu) ^ 2 =
      ∑ i, (real_mu i - x_mu i) ^ 2 := by
    rw [EuclideanSpace.dist_eq, Real.sq_sqrt]
    · simp only [WithLp.equiv_symm_pi_apply]
      exact Finset.sum_congr rfl fun i _ => by rw [Real.dist_eq, sq_abs]
    · exact Finset.sum_nonneg fun i _ => sq_nonneg _
  rw [calculate_fid, hdist]
  simp [Pi.sub_apply]

/-- C4: swapping the two input distributions leaves `calculate_fid` unchanged
when the two covariance matrices commute. -/
theorem calculate_fid_swap {n : ℕ} (mu_a mu_b : Fin n → ℝ)
    (sigma_a sigma_b : Matrix (Fin n) (Fin n) ℝ)
    (ha : sigma_a.PosSemidef) (hb : sigma_b.PosSemidef)
    (hcomm : sigma_a * sigma_b = sigma_b * sigma_a) :
    calculate_fid mu_a sigma_a mu_b sigma_b =
      calculate_fid mu_b sigma_b mu_a sigma_a := by
  rw [calculate_fid, calculate_fid, hcomm, add_comm sigma_a sigma_b]
  congr 1
  exact Finset.sum_congr rfl fun i _ => by simp only [Pi.sub_apply]; ring

/-- Witness for C4 at concrete inputs: `sigma_real` commutes with itself. -/
theorem calculate_fid_swap_witness :
    sigma_real.PosSemidef ∧ sigma_real * sigma_real = sigma_real * sigma_real ∧
      calculate_fid mu_real sigma_real mu1 sigma_real =
        calculate_fid mu1 sigma_real mu_real sigma_real :=
  ⟨sigma_real_posSemidef, rfl,
    calculate_fid_swap mu_real mu1 sigma_real sigma_real
      sigma_real_posSemidef sigma_real_posSemidef rfl⟩

/-- C7: `calculate_fid` is extensional in its four arguments: two calls with
equal inputs return equal results (the embedding is a pure function of the
four arrays, so no global state or mutation can influence the result). -/
theorem calculate_fid_deterministic {n : ℕ}
    (a a' : Fin n → ℝ) (b b' : Matrix (Fin n) (Fin n) ℝ)
    (c c' : Fin n → ℝ) (d d' : Matrix (Fin n) (Fin n) ℝ)
    (ha : a = a') (hb : b = b') (hc : c = c') (hd : d = d') :
    calculate_fid a b c d = calculate_fid a' b' c' d' := by
  rw [ha, hb, hc, hd]

/-- Witness for C7 at the script's concrete inputs. -/
theorem calculate_fid_deterministic_witness :
    mu_real = mu_real ∧ fid1 = calculate_fid mu_real sigma_real mu1 sigma1 :=
  ⟨rfl, calculate_fid_deterministic mu_real mu_real sigma_real sigma_real
    mu1 mu1 sigma1 sigma1 rfl rfl rfl rfl⟩

/-- Fallible variant of the FID computation: the matrix square root routine is
an external call that can fail (for example on a shape mismatch inside the
library); the script wraps it in no try/except, so the computation is a plain
monadic bind in the error monad, exactly mirroring the source's straight-line
control flow. -/
def calculate_fidE {n : ℕ} {ε : Type}
    (sqrtmE : Matrix (Fin n) (Fin n) ℝ → Except ε (Matrix (Fin n) (Fin n) ℝ))
    (real_mu : Fin n → ℝ) (real_sigma : Matrix (Fin n) (Fin n) ℝ)
    (x_mu : Fin n → ℝ) (x_sigma : Matrix (Fin n) (Fin n) ℝ) : Except ε ℝ := do
  let diff := real_mu - x_mu
  let mean_diff := ∑ i, diff i ^ 2
  let covmean ← sqrtmE (real_sigma * x_sigma)
  return mean_diff + Matrix.trace (real_sigma + x_sigma - (2 : ℝ) • covmean)

/-- C6: a failure of the underlying library routine propagates out of
`calculate_fid` unmodified: whenever the square root routine fails with error
`e`, the whole computation fails with exactly that error (no handler is
installed, nothing is altered, suppressed or replaced), and when the routine
succeeds the computation succeeds. -/
theorem calculate_fidE_propagates {n : ℕ} {ε : Type}
    (sqrtmE : Matrix (Fin n) (Fin n) ℝ → Except ε (Matrix (Fin n) (Fin n) ℝ))
    (real_mu : Fin n → ℝ) (real_sigma : Matrix (Fin n) (Fin n) ℝ)
    (x_mu : Fin n → ℝ) (x_sigma : Matrix (Fin n) (Fin n) ℝ)
    (e : ε) (hfail : sqrtmE (real_sigma * x_sigma) = .error e) :
    calculate_fidE sqrtmE real_mu real_sigma x_mu x_sigma = .error e := by
  simp [calculate_fidE, hfail]

/-- Witness for C6: with a square root oracle that fails with error code 37,
the FID computation fails with error code 37. -/
theorem calculate_fidE_propagates_witness :
    (fun _ : Matrix (Fin 4) (Fin 4) ℝ => (Except.error 37 :
        Except ℕ (Matrix (Fin 4) (Fin 4) ℝ))) (sigma_real * sigma1) =
      .error 37 ∧
    calculate_fidE (fun _ => .error 37) mu_real sigma_real mu1 sigma1 =
      .error 37 :=
  ⟨rfl, calculate_fidE_propagates _ mu_real sigma_real mu1 sigma1 37 rfl⟩

end FID

/-!
Embedding of the training-loop tutorial notebook
(src/recitations/Week2-training.ipynb).  The notebook delegates tensor
algebra, autodiff and data loading to PyTorch; the pieces the claims are
about are modelled as follows: the order of the calls in the body of
`train_epoch` becomes an explicit event trace, the optimizer's documented
update rule becomes a pure function on weight vectors, and the
`DataLoader(..., drop_last=True)` batching becomes an explicit chunking of the
dataset list.
-/

namespace Training

/-- Operations performed by `train_epoch`, in source order: `model.train()`
before the loop, then per batch the move of `x, y` to the device, the call
`optimizer.zero_grad()`, the forward pass `model(x)`, the loss computation
`loss_fn(y_pred, y)`, the backpropagation `loss.backward()`, the parameter
update `optimizer.step()` and the progress-bar text update. -/
inductive Ev
  | modelTrain
  | toDevice
  | zeroGrad
  | forwardPass
  | lossCompute
  | backward
  | optStep
  | pbarUpdate
  deriving DecidableEq, BEq

/-- Events of one iteration of the batch loop of `train_epoch`, transcribed
line by line from the loop body. -/
def iterationEvents : List Ev :=
  [.toDevice, .zeroGrad, .forwardPass, .lossCompute, .backward, .optStep,
   .pbarUpdate]

/-- Full event trace of `train_epoch` on `nBatches` batches: `model.train()`
first, then the per-batch block repeated once per yielded batch. -/
def train_epoch_trace (nBatches : ℕ) : List Ev :=
  Ev.modelTrain :: (List.replicate nBatches iterationEvents).flatten

/-- Slicing the repeated block out of the flattened trace. -/
lemma flatten_replicate_slice :
    ∀ n i : ℕ, i < n →
      (((List.replicate n iterationEvents).flatten).drop (7 * i)).take 7 =
        iterationEvents := by
  intro n
  induction n with
  | zero => intro i hi; exact absurd hi (Nat.not_lt_zero i)
  | succ n ih =>
      intro i hi
      cases i with
      | zero =>
          rw [Nat.mul_zero, List.drop_zero, List.replicate_succ,
            List.flatten_cons]
          exact List.take_left' rfl
      | succ i =>
          rw [List.replicate_succ, List.flatten_cons,
            show 7 * (i + 1) = 7 + 7 * i by ring, ← List.drop_drop,
            List.drop_left' (show iterationEvents.length = 7 from rfl)]
          exact ih i (Nat.lt_of_succ_lt_succ hi)

/-- C8: in every iteration of `train_epoch`'s batch loop the operations
occur in the fixed order: move the batch to the device, zero the gradients,
forward pass, loss computation, backpropagation, then parameter update; in
particular `optimizer.step` is never called before `loss.backward` within a
batch.  The trace of iteration `i` (after the initial `model.train()`) is
exactly `iterationEvents`, and within it the six operations appear at
strictly increasing positions. -/
theorem train_epoch_batch_order (n i : ℕ) (h : i < n) :
    ((train_epoch_trace n).drop (1 + 7 * i)).take 7 = iterationEvents ∧
    iterationEvents.indexOf Ev.toDevice < iterationEvents.indexOf Ev.zeroGrad ∧
    iterationEvents.indexOf Ev.zeroGrad <
      iterationEvents.indexOf Ev.forwardPass ∧
    iterationEvents.indexOf Ev.forwardPass <
      iterationEvents.indexOf Ev.lossCompute ∧
    iterationEvents.indexOf Ev.lossCompute <
      iterationEvents.indexOf Ev.backward ∧
    iterationEvents.indexOf Ev.backward < iterationEvents.indexOf Ev.optStep := by
  refine ⟨?_, by decide, by decide, by decide, by decide, by decide⟩
  rw [train_epoch_trace, Nat.add_comm 1 (7 * i), List.drop_succ_cons]
  exact flatten_replicate_slice n i h

/-- Witness for C8 in the second iteration of a two-batch epoch. -/
theorem train_epoch_batch_order_witness :
    1 < 2 ∧
      ((train_epoch_trace 2).drop (1 + 7 * 1)).take 7 = iterationEvents :=
  ⟨by decide, (train_epoch_batch_order 2 1 (by decide)).1⟩

/-- Modelled from the spec: one `optimizer.step()` of PyTorch's `optim.SGD`
(external library code), following the documented algorithm with
hyperparameters learning rate, momentum, dampening, weight decay and the
nesterov flag, acting elementwise on a parameter vector `w` with gradient
`g` and optional momentum buffer `buf`.  The notebook constructs the
optimizer as `optim.SGD(model.parameters(), lr = 0.001)`, so momentum,
dampening and weight decay take their default value `0` and nesterov its
default `false`. -/
noncomputable def sgdStep {k : ℕ} (lr momentum dampening weight_decay : ℝ)
    (nesterov : Bool) (buf : Option (Fin k → ℝ)) (w g : Fin k → ℝ) :
    Fin k → ℝ :=
  letI := Classical.propDecidable (momentum = 0)
  let gt := fun i => g i + weight_decay * w i
  let gt' :=
    if momentum = 0 then gt
    else
      let bt := match buf with
        | none => gt
        | some b => fun i => momentum * b i + (1 - dampening) * gt i
      if nesterov then fun i => gt i + momentum * bt i else bt
  fun i => w i - lr * gt' i

/-- The notebook's manual update `w_after = w_before - 0.001 * w_before_grad`
(elementwise tensor semantics). -/
noncomputable def w_after {k : ℕ} (w_before w_before_grad : Fin k → ℝ) :
    Fin k → ℝ :=
  fun i => w_before i - 0.001 * w_before_grad i

/-- C9: one `optimizer.step()` on SGD with `lr = 0.001` (and default
hyperparameters) replaces `w` by `w - 0.001 * g`, which is exactly the value
the notebook computes manually as `w_after`; the notebook's
`torch.allclose(w_after, model[1].weight)` comparison succeeds because the
two updates agree exactly. -/
theorem sgd_step_eq_manual_update {k : ℕ} (buf : Option (Fin k → ℝ))
    (w g : Fin k → ℝ) :
    sgdStep 0.001 0 0 0 false buf w g = w_after w g ∧
      w_after w g = fun i => w i - 0.001 * g i := by
  constructor
  · funext i
    simp [sgdStep, w_after]
  · rfl

/-- Modelled from the spec: the batches yielded by
`DataLoader(train_data, batch_size = B, shuffle = True, drop_last = True)`:
`len(data) / B` (integer division) batches of exactly `B` samples each; the
final `len(data) % B` samples are dropped.  Shuffling permutes the dataset
between epochs; the loss accounting in the claim is independent of the
permutation, so the loader is modelled without it. -/
def dropLastBatches {α : Type} (B : ℕ) (data : List α) : List (List α) :=
  (List.range (data.length / B)).map fun i => (data.drop (B * i)).take B

/-- The epoch accumulation in `train`: `running_avg_train_loss` starts at
`0.0`, adds `loss.item() * x.shape[0]` for every yielded batch, and is then
divided by `len(train_loader.dataset)`.  Here `lossOf b` is the mean loss
`loss.item()` of batch `b` and `b.length` its size `x.shape[0]`. -/
noncomputable def running_avg_train_loss {α : Type} (lossOf : List α → ℝ)
    (loader : List (List α)) (datasetLen : ℕ) : ℝ :=
  (loader.foldl (fun acc b => acc + lossOf b * b.length) 0) / datasetLen

/-- Left fold of additions is the sum of the mapped list. -/
lemma foldl_add_eq_sum {α : Type} (f : α → ℝ) :
    ∀ (l : List α) (a : ℝ), l.foldl (fun acc b => acc + f b) a = a + (l.map f).sum := by
  intro l
  induction l with
  | nil => intro a; simp
  | cons x xs ih =>
      intro a
      simp only [List.foldl_cons, List.map_cons, List.sum_cons, ih]
      ring

/-- Every batch yielded by the drop-last loader has exactly `B` samples. -/
lemma dropLastBatches_batch_len {α : Type} (B : ℕ) (data : List α) :
    ∀ b ∈ dropLastBatches B data, b.length = B := by
  intro b hb
  simp only [dropLastBatches, List.mem_map, List.mem_range] at hb
  obtain ⟨i, hi, rfl⟩ := hb
  have h1 : (i + 1) * B ≤ data.length :=
    le_trans (Nat.mul_le_mul_right B hi) (Nat.div_mul_le_self _ _)
  have h2 : B + B * i ≤ data.length := by
    calc B + B * i = (i + 1) * B := by ring
      _ ≤ data.length := h1
  rw [List.length_take, List.length_drop]
  exact Nat.min_eq_left (Nat.le_sub_of_add_le h2)

/-- C10: when the dataset length is not a multiple of the batch size, the
value `train` reports as the running average train loss equals the sum over
yielded batches of (mean batch loss times batch size) divided by the full
dataset length; because the loader drops the last incomplete batch, the
dropped samples are counted in the denominator but contribute nothing to the
numerator, so the reported value is strictly below the mean per-sample loss
over the `B * (len / B)` samples actually processed whenever that mean is
positive. -/
theorem train_loss_accounting {α : Type} (lossOf : List α → ℝ) (data : List α)
    (B : ℕ) (hB : 0 < B) (hmod : data.length % B ≠ 0)
    (hpos : 0 <
      ((dropLastBatches B data).map fun b => lossOf b * b.length).sum /
        ((B * (data.length / B) : ℕ) : ℝ)) :
    running_avg_train_loss lossOf (dropLastBatches B data) data.length =
      ((dropLastBatches B data).map fun b => lossOf b * b.length).sum /
        (data.length : ℝ) ∧
    running_avg_train_loss lossOf (dropLastBatches B data) data.length <
      ((dropLastBatches B data).map fun b => lossOf b * b.length).sum /
        ((B * (data.length / B) : ℕ) : ℝ) := by
  have hrepr : running_avg_train_loss lossOf (dropLastBatches B data)
      data.length =
      ((dropLastBatches B data).map fun b => lossOf b * b.length).sum /
        (data.length : ℝ) := by
    rw [running_avg_train_loss, foldl_add_eq_sum, zero_add]
  refine ⟨hrepr, ?_⟩
  rw [hrepr]
  have hdm := Nat.div_add_mod data.length B
  have hm0 : 0 < data.length % B := Nat.pos_of_ne_zero hmod
  have hlt : B * (data.length / B) < data.length := by
    calc B * (data.length / B) < B * (data.length / B) + data.length % B :=
          Nat.lt_add_of_pos_right hm0
      _ = data.length := hdm
  have hc0 : (0 : ℝ) < ((B * (data.length / B) : ℕ) : ℝ) := by
    rcases Nat.eq_zero_or_pos (B * (data.length / B)) with hc | hc
    · rw [hc] at hpos
      norm_num at hpos
    · exact_mod_cast hc
  have hS : 0 <
      ((dropLastBatches B data).map fun b => lossOf b * b.length).sum := by
    by_contra h'
    push_neg at h'
    have hnp := div_nonpos_iff.mpr (Or.inr ⟨h', hc0.le⟩)
    linarith [hpos]
  exact div_lt_div_of_pos_left hS hc0 (by exact_mod_cast hlt)

/-- Witness for C10: five samples, batch size two, constant unit batch loss;
the reported value is 4/5 while the mean over the four processed samples
is 1. -/
theorem train_loss_accounting_witness :
    0 < 2 ∧ ([0, 1, 2, 3, 4] : List ℕ).length % 2 ≠ 0 ∧
      (0 < ((dropLastBatches 2 ([0, 1, 2, 3, 4] : List ℕ)).map
          fun b => (fun _ : List ℕ => (1 : ℝ)) b * b.length).sum /
        ((2 * (([0, 1, 2, 3, 4] : List ℕ).length / 2) : ℕ) : ℝ)) ∧
      running_avg_train_loss (fun _ : List ℕ => (1 : ℝ))
        (dropLastBatches 2 ([0, 1, 2, 3, 4] : List ℕ))
        ([0, 1, 2, 3, 4] : List ℕ).length <
      ((dropLastBatches 2 ([0, 1, 2, 3, 4] : List ℕ)).map
          fun b => (fun _ : List ℕ => (1 : ℝ)) b * b.length).sum /
        ((2 * (([0, 1, 2, 3, 4] : List ℕ).length / 2) : ℕ) : ℝ) := by
  have hdl : dropLastBatches 2 ([0, 1, 2, 3, 4] : List ℕ) =
      [[0, 1], [2, 3]] := rfl
  have hpos : 0 < ((dropLastBatches 2 ([0, 1, 2, 3, 4] : List ℕ)).map
      fun b => (fun _ : List ℕ => (1 : ℝ)) b * b.length).sum /
      ((2 * (([0, 1, 2, 3, 4] : List ℕ).length / 2) : ℕ) : ℝ) := by
    rw [hdl]
    norm_num
  exact ⟨by norm_num, by norm_num, hpos,
    (train_loss_accounting (fun _ : List ℕ => (1 : ℝ)) [0, 1, 2, 3, 4] 2
      (by norm_num) (by norm_num) hpos).2⟩

end Training
